import Mathlib

set_option maxRecDepth 100000

/-! ### KFold (non-shuffled contiguous folds)

Modelled from the spec: `KFold(n_splits=k)` without shuffling divides the
`n` row indices `0..n-1` into `k` contiguous folds; the first `n % k`
folds have size `n / k + 1` and the rest have size `n / k`; fold `i` is
the slice of the index list starting at the sum of the previous fold
sizes.  The train side of each split is the complement of the test side,
in increasing order. -/

def foldSize (m k i : Nat) : Nat :=
  if i < m % k then m / k + 1 else m / k

def foldStart (m k i : Nat) : Nat :=
  i * (m / k) + min i (m % k)

/-- Slice fold `i` out of an arbitrary index list (as `indices[start:start+size]`). -/
def kfoldTestOf (idxs : List Nat) (k i : Nat) : List Nat :=
  (idxs.drop (foldStart idxs.length k i)).take (foldSize idxs.length k i)

def kfoldTest (n k i : Nat) : List Nat :=
  kfoldTestOf (List.range n) k i

def kfoldTrain (n k i : Nat) : List Nat :=
  (List.range n).filter (fun j => decide (j ∉ kfoldTest n k i))

def kfoldSplits (n k : Nat) : List (List Nat × List Nat) :=
  (List.range k).map (fun i => (kfoldTrain n k i, kfoldTest n k i))

/-- A (train, test) pair partitions the row indices `0..n-1`. -/
def IsPartition (n : Nat) (train test : List Nat) : Prop :=
  (∀ j, ¬(j ∈ train ∧ j ∈ test)) ∧
  (∀ j, (j ∈ train ∨ j ∈ test) ↔ j < n) ∧
  train.length + test.length = n

/-! ### LeaveOneOut (one-sample-out folds)

Modelled from the spec: `LeaveOneOut().split` on `n` rows yields one
split per row, the `i`-th having test set `[i]` and train set all other
indices in increasing order. -/

def looTest (i : Nat) : List Nat := [i]

def looTrain (n i : Nat) : List Nat :=
  (List.range n).filter (fun j => decide (j ∉ looTest i))

def looSplits (n : Nat) : List (List Nat × List Nat) :=
  (List.range n).map (fun i => (looTrain n i, looTest i))

/-! ### train_test_split (uniform random split)

Modelled from the spec: `train_test_split` draws a random permutation of
the `n` row indices, takes the first `n_test` entries as the test
indices and the rest as the train indices (by default
`n_test = ⌈n/4⌉`), and splits every input array by selecting those row
positions, the same positions in each array. -/

def defaultTestSize (n : Nat) : Nat := (n + 3) / 4

def testIdx (perm : List Nat) (nTest : Nat) : List Nat := perm.take nTest

def trainIdx (perm : List Nat) (nTest : Nat) : List Nat := perm.drop nTest

/-- Fancy indexing `a[idxs]`: select the rows of `a` at the given positions. -/
def selectRows (idxs : List Nat) (a : List α) : List α :=
  idxs.filterMap (fun i => a[i]?)

def train_test_split (perm : List Nat) (nTest : Nat) (arrays : List (List α)) :
    List (List α × List α) :=
  arrays.map (fun a => (selectRows (trainIdx perm nTest) a, selectRows (testIdx perm nTest) a))

/-! ### GroupKFold (group-disjoint folds)

Modelled from the spec: `GroupKFold(n_splits=k)` assigns each distinct
group label wholly to a single fold (the same group never appears in two
different folds), greedily placing groups, largest first, on the fold
with the fewest samples so far; fold `i`'s test set is every row whose
group was assigned to fold `i`, and its train set is every other row. -/

def uniqueSorted (l : List Nat) : List Nat :=
  (List.range (l.foldr max 0 + 1)).filter (fun c => decide (c ∈ l))

def byCountDesc (groups : List Nat) (a b : Nat) : Bool :=
  decide (groups.count b < groups.count a) ||
    (decide (groups.count a = groups.count b) && decide (a ≤ b))

def insertSorted (le : Nat → Nat → Bool) (a : Nat) : List Nat → List Nat
  | [] => [a]
  | b :: bs => if le a b then a :: b :: bs else b :: insertSorted le a bs

def sortByCountDesc (groups : List Nat) : List Nat :=
  (uniqueSorted groups).foldr (insertSorted (byCountDesc groups)) []

/-- Index of the first minimum of a list of fold weights. -/
def argmin : List Nat → Nat
  | [] => 0
  | [_] => 0
  | a :: b :: rest =>
      let j := argmin (b :: rest)
      if a ≤ (b :: rest).getD j 0 then 0 else j + 1

def greedyAssign (groups : List Nat) : List Nat → List Nat → List (Nat × Nat)
  | [], _ => []
  | g :: gs, weights =>
      let f := argmin weights
      (g, f) :: greedyAssign groups gs (weights.set f (weights.getD f 0 + groups.count g))

def groupToFold (groups : List Nat) (k : Nat) : List (Nat × Nat) :=
  greedyAssign groups (sortByCountDesc groups) (List.replicate k 0)

def foldOfGroup (asg : List (Nat × Nat)) (g : Nat) : Option Nat :=
  (asg.find? (fun p => p.1 == g)).map (fun p => p.2)

def groupKFoldTest (groups : List Nat) (k i : Nat) : List Nat :=
  (List.range groups.length).filter
    (fun j => foldOfGroup (groupToFold groups k) (groups.getD j 0) == some i)

def groupKFoldTrain (groups : List Nat) (k i : Nat) : List Nat :=
  (List.range groups.length).filter
    (fun j => !(foldOfGroup (groupToFold groups k) (groups.getD j 0) == some i))

/-- The class labels of the truncated Iris data (50 setosa, 50
versicolor, 25 virginica), used as `groups = iris.target`. -/
def irisTarget : List Nat :=
  List.replicate 50 0 ++ List.replicate 50 1 ++ List.replicate 25 2

/-! ### StratifiedKFold (class-proportional folds)

Modelled from the spec: `StratifiedKFold(n_splits=k).split(X, y)` splits
the positions of each class separately with a non-shuffled KFold, so
fold `i`'s test set takes, for every class `c`, the `i`-th contiguous
KFold slice of the positions of class `c` in `y`. -/

def classIndices (y : List Nat) (c : Nat) : List Nat :=
  (List.range y.length).filter (fun j => decide (y.getD j 0 = c))

def stratifiedTest (y : List Nat) (k i : Nat) : List Nat :=
  (uniqueSorted y).flatMap (fun c => kfoldTestOf (classIndices y c) k i)

def stratifiedTrain (y : List Nat) (k i : Nat) : List Nat :=
  (List.range y.length).filter (fun j => decide (j ∉ stratifiedTest y k i))

/-! ### MNIST normalization (the one authored data transformation)

From the notebook source: `x_train, x_test = x_train / 255.0, x_test / 255.0`.
Pixels are integers 0..255; the elementwise division is modelled over ℚ. -/

def normalizePixel (x : Nat) : ℚ := (x : ℚ) / 255

def normalizeImage (img : List (List Nat)) : List (List ℚ) :=
  img.map (fun row => row.map normalizePixel)

def normalizeBatch (xs : List (List (List Nat))) : List (List (List ℚ)) :=
  xs.map normalizeImage

/-- `a` is a rectangular 3-d array of shape `(d1, d2, d3)`. -/
def hasShape3 {α : Type} (a : List (List (List α))) (d1 d2 d3 : Nat) : Prop :=
  a.length = d1 ∧ ∀ img ∈ a, img.length = d2 ∧ ∀ row ∈ img, row.length = d3

/-! ### MNIST arrays (modelled)

Modelled from the spec: `mnist.load_data()` is external library code;
per the spec it returns a training image array of shape (60000, 28, 28)
and a test image array of shape (10000, 28, 28) of integer pixels. -/

def mnistXTrain : List (List (List Nat)) :=
  List.replicate 60000 (List.replicate 28 (List.replicate 28 0))

def mnistXTest : List (List (List Nat)) :=
  List.replicate 10000 (List.replicate 28 (List.replicate 28 0))

/-! ### Error propagation (absence of authored error handling)

Modelled from the spec: each notebook is a straight-line sequence of
library calls; no exception handler exists anywhere in the repository,
so a library error surfaces unmodified and later cells do not run.
Cell state is abstracted to a `Nat`; a failing call returns a `Nat`
error code. -/

inductive Stmt where
  | call (f : Nat → Except Nat Nat)
  | tryCatch (body : Stmt) (handler : Stmt)

def Stmt.isCall : Stmt → Bool
  | .call _ => true
  | .tryCatch _ _ => false

def runStmt : Stmt → Nat → Except Nat Nat
  | .call f, s => f s
  | .tryCatch b h, s =>
      match runStmt b s with
      | .ok s' => .ok s'
      | .error _ => runStmt h s

def runProgram : List Stmt → Nat → Except Nat Nat
  | [], s => .ok s
  | st :: rest, s =>
      match runStmt st s with
      | .ok s' => runProgram rest s'
      | .error e => .error e

/-- A notebook: every cell is a bare library call, never a handler. -/
def notebookProgram (calls : List (Nat → Except Nat Nat)) : List Stmt :=
  calls.map Stmt.call

/-! ### The Sequential MNIST model

From the notebook source: `Sequential([Flatten(input_shape=(28, 28)),
Dense(512, relu), Dense(200, relu), Dense(100, relu),
Dense(10, softmax)])`, compiled with the sparse categorical crossentropy
loss.  The layer arithmetic is external library code, modelled from the
spec over ℝ. -/

inductive Activation where
  | relu
  | softmax
deriving DecidableEq

inductive Layer where
  | flatten (d1 d2 : Nat)
  | dense (units : Nat) (act : Activation)
deriving DecidableEq

/-- The layer stack constructed in the notebook. -/
def modelLayers : List Layer :=
  [.flatten 28 28, .dense 512 .relu, .dense 200 .relu, .dense 100 .relu,
   .dense 10 .softmax]

def relu (x : ℝ) : ℝ := max x 0

def dot (w x : List ℝ) : ℝ :=
  ((w.zip x).map (fun p => p.1 * p.2)).sum

def denseLinear (W : List (List ℝ)) (b : List ℝ) (x : List ℝ) : List ℝ :=
  (W.zip b).map (fun p => dot p.1 x + p.2)

def denseRelu (W : List (List ℝ)) (b : List ℝ) (x : List ℝ) : List ℝ :=
  (denseLinear W b x).map relu

noncomputable def softmax (v : List ℝ) : List ℝ :=
  v.map (fun z => Real.exp z / (v.map Real.exp).sum)

structure ModelParams where
  W1 : List (List ℝ)
  b1 : List ℝ
  W2 : List (List ℝ)
  b2 : List ℝ
  W3 : List (List ℝ)
  b3 : List ℝ
  W4 : List (List ℝ)
  b4 : List ℝ

noncomputable def modelForward (p : ModelParams) (img : List (List ℝ)) : List ℝ :=
  softmax (denseLinear p.W4 p.b4
    (denseRelu p.W3 p.b3 (denseRelu p.W2 p.b2 (denseRelu p.W1 p.b1 img.flatten))))

/-! ### Theorems settling the claims -/

theorem foldStart_zero (m k : Nat) : foldStart m k 0 = 0 := by
  simp [foldStart]

theorem foldStart_succ (m k i : Nat) :
    foldStart m k (i + 1) = foldStart m k i + foldSize m k i := by
  unfold foldStart foldSize
  rcases Nat.lt_or_ge i (m % k) with h | h
  · rw [if_pos h, Nat.min_eq_left (Nat.le_of_lt h), Nat.min_eq_left h, Nat.succ_mul]
    omega
  · rw [if_neg (Nat.not_lt.mpr h), Nat.min_eq_right h,
      Nat.min_eq_right (Nat.le_succ_of_le h), Nat.succ_mul]
    omega

theorem foldStart_le_succ (m k i : Nat) : foldStart m k i ≤ foldStart m k (i + 1) := by
  rw [foldStart_succ]; omega

theorem foldStart_mono (m k : Nat) {i j : Nat} (h : i ≤ j) :
    foldStart m k i ≤ foldStart m k j := by
  induction j with
  | zero => simp_all
  | succ j ih =>
    rcases Nat.lt_or_ge i (j + 1) with h' | h'
    · exact Nat.le_trans (ih (Nat.lt_succ_iff.mp h')) (foldStart_le_succ m k j)
    · have : i = j + 1 := Nat.le_antisymm h h'
      subst this; exact Nat.le_refl _

theorem foldStart_self (m k : Nat) (hk : 0 < k) : foldStart m k k = m := by
  unfold foldStart
  rw [Nat.min_eq_right (Nat.le_of_lt (Nat.mod_lt m hk))]
  exact Nat.div_add_mod m k

theorem foldStart_add_foldSize_le (m k i : Nat) (hk : 0 < k) (hi : i < k) :
    foldStart m k i + foldSize m k i ≤ m := by
  rw [← foldStart_succ]
  calc foldStart m k (i + 1) ≤ foldStart m k k := foldStart_mono m k hi
    _ = m := foldStart_self m k hk

/-- Each fold's size is the floor or the ceiling of `m / k`. -/
theorem foldSize_floor_or_ceil (m k i : Nat) (hk : 0 < k) :
    foldSize m k i = m / k ∨ foldSize m k i = (m + k - 1) / k := by
  unfold foldSize
  split
  · right
    have hr : 0 < m % k := by omega
    have hrk : m % k < k := Nat.mod_lt m hk
    have hm : m / k * k + m % k = m := Nat.div_add_mod' m k
    have hkey : m + k - 1 = (m % k - 1) + (m / k + 1) * k := by
      rw [Nat.add_mul, Nat.one_mul]
      omega
    have h0 : (m % k - 1) / k = 0 := Nat.div_eq_of_lt (by omega)
    rw [hkey, Nat.add_mul_div_right _ _ hk, h0]
    omega
  · left; rfl

theorem length_kfoldTestOf (idxs : List Nat) (k i : Nat) (hk : 0 < k) (hi : i < k) :
    (kfoldTestOf idxs k i).length = foldSize idxs.length k i := by
  unfold kfoldTestOf
  rw [List.length_take, List.length_drop]
  have := foldStart_add_foldSize_le idxs.length k i hk hi
  omega

theorem kfoldTestOf_sublist (idxs : List Nat) (k i : Nat) :
    (kfoldTestOf idxs k i).Sublist idxs :=
  (List.take_sublist _ _).trans (List.drop_sublist _ _)

/-- Telescoping: the folds from `j` on concatenate to the tail of the index list. -/
theorem flatMap_kfoldTestOf_from (idxs : List Nat) (k : Nat) (hk : 0 < k) :
    ∀ c j, j + c = k →
      (List.range' j c).flatMap (fun i => kfoldTestOf idxs k i) =
        idxs.drop (foldStart idxs.length k j) := by
  intro c
  induction c with
  | zero =>
    intro j hj
    have hjk : j = k := by omega
    subst hjk
    rw [foldStart_self idxs.length j hk, List.drop_length]
    simp
  | succ c ih =>
    intro j hj
    rw [List.range'_succ, List.flatMap_cons, ih (j + 1) (by omega)]
    unfold kfoldTestOf
    rw [foldStart_succ, ← List.drop_drop]
    exact List.take_append_drop _ _

/-- The `k` test folds concatenate, in order, to the whole index list. -/
theorem flatMap_kfoldTestOf (idxs : List Nat) (k : Nat) (hk : 0 < k) :
    (List.range k).flatMap (fun i => kfoldTestOf idxs k i) = idxs := by
  rw [List.range_eq_range', flatMap_kfoldTestOf_from idxs k hk k 0 (by omega),
    foldStart_zero, List.drop_zero]

/-- Each KFold test set is the contiguous range starting at its fold start. -/
theorem kfoldTest_eq_range' (n k i : Nat) (hk : 0 < k) (hi : i < k) :
    kfoldTest n k i = List.range' (foldStart n k i) (foldSize n k i) := by
  apply List.ext_get
  · rw [kfoldTest, length_kfoldTestOf _ _ _ hk hi, List.length_range', List.length_range]
  · intro j h1 h2
    simp only [List.get_eq_getElem, kfoldTest, kfoldTestOf, List.getElem_take,
      List.getElem_drop, List.getElem_range, List.getElem_range', List.length_range,
      Nat.one_mul]

theorem length_filter_mem (n : Nat) (test : List Nat)
    (hnd : test.Nodup) (hsub : ∀ j ∈ test, j < n) :
    ((List.range n).filter (fun j => decide (j ∈ test))).length = test.length := by
  apply List.Perm.length_eq
  rw [List.perm_ext_iff_of_nodup ((List.nodup_range n).filter _) hnd]
  intro a
  simp only [List.mem_filter, List.mem_range, decide_eq_true_eq]
  exact ⟨fun h => h.2, fun h => ⟨hsub a h, h⟩⟩

theorem isPartition_complement (n : Nat) (test : List Nat)
    (hnd : test.Nodup) (hsub : ∀ j ∈ test, j < n) :
    IsPartition n ((List.range n).filter (fun j => decide (j ∉ test))) test := by
  refine ⟨?_, ?_, ?_⟩
  · intro j ⟨htr, hte⟩
    have := (List.mem_filter.mp htr).2
    rw [decide_eq_true_eq] at this
    exact this hte
  · intro j
    constructor
    · rintro (h | h)
      · exact List.mem_range.mp (List.mem_filter.mp h).1
      · exact hsub j h
    · intro hj
      by_cases hmem : j ∈ test
      · exact Or.inr hmem
      · exact Or.inl (List.mem_filter.mpr ⟨List.mem_range.mpr hj, decide_eq_true hmem⟩)
  · have hsplit := List.length_eq_length_filter_add (l := List.range n)
      (fun j => decide (j ∈ test))
    rw [length_filter_mem n test hnd hsub, List.length_range] at hsplit
    have hfe : (List.range n).filter (fun j => !decide (j ∈ test)) =
        (List.range n).filter (fun j => decide (j ∉ test)) := by
      apply List.filter_congr
      intro x _
      simp
    rw [hfe] at hsplit
    omega

theorem isPartition_kfold (n k i : Nat) :
    IsPartition n (kfoldTrain n k i) (kfoldTest n k i) := by
  have hsub : (kfoldTest n k i).Sublist (List.range n) := kfoldTestOf_sublist _ _ _
  exact isPartition_complement n (kfoldTest n k i)
    (hsub.nodup (List.nodup_range n))
    (fun j hj => List.mem_range.mp (hsub.subset hj))

/-- C1: the non-shuffled `KFold(n_splits=k).split` iterator on `n` rows
(`2 ≤ k ≤ n`) yields exactly `k` (train, test) pairs; each test set is a
contiguous in-order range of size `⌊n/k⌋` or `⌈n/k⌉`, and the test sets
concatenate in order to the full index list `0..n-1`; on 125 rows with
`k = 3` the test sizes are 42, 42, 41 and the first test set is `0..41`. -/
theorem kfold_contiguous_folds :
    (∀ n k, 2 ≤ k → k ≤ n →
      (kfoldSplits n k).length = k ∧
      (∀ i, i < k →
        kfoldTest n k i = List.range' (foldStart n k i) (foldSize n k i) ∧
        ((kfoldTest n k i).length = n / k ∨ (kfoldTest n k i).length = (n + k - 1) / k)) ∧
      (List.range k).flatMap (fun i => kfoldTest n k i) = List.range n) ∧
    ((kfoldSplits 125 3).map (fun p => p.2.length) = [42, 42, 41] ∧
      kfoldTest 125 3 0 = List.range 42) := by
  constructor
  · intro n k h2 hkn
    have hk : 0 < k := by omega
    refine ⟨by simp [kfoldSplits], ?_, flatMap_kfoldTestOf (List.range n) k hk⟩
    intro i hi
    refine ⟨kfoldTest_eq_range' n k i hk hi, ?_⟩
    have hlen : (kfoldTest n k i).length = foldSize n k i := by
      have := length_kfoldTestOf (List.range n) k i hk hi
      rwa [List.length_range] at this
    rw [hlen]
    exact foldSize_floor_or_ceil n k i hk
  · exact ⟨by decide, by decide⟩

theorem kfold_contiguous_folds_witness :
    (kfoldSplits 125 3).length = 3 ∧
      kfoldTest 125 3 0 = List.range' (foldStart 125 3 0) (foldSize 125 3 0) :=
  ⟨(kfold_contiguous_folds.1 125 3 (by decide) (by decide)).1,
   ((kfold_contiguous_folds.1 125 3 (by decide) (by decide)).2.1 0 (by decide)).1⟩

theorem flatten_map_singleton (n : Nat) :
    ((List.range n).map (fun i => ([i] : List Nat))).flatten = List.range n := by
  induction n with
  | zero => rfl
  | succ m ih => rw [List.range_succ]; simp [ih]

theorem isPartition_loo (n i : Nat) (hi : i < n) :
    IsPartition n (looTrain n i) (looTest i) :=
  isPartition_complement n (looTest i) (List.nodup_singleton i)
    (fun j hj => by rw [looTest, List.mem_singleton] at hj; omega)

/-- C3: `LeaveOneOut().split` on `n ≥ 1` rows yields exactly `n` pairs;
each pair has a singleton test set and a train set of the remaining
`n - 1` indices, and the singleton test sets enumerate `0..n-1` exactly
once; on 125 rows it produces 125 splits with train length 124 and test
length 1. -/
theorem leave_one_out_folds :
    (∀ n, 1 ≤ n →
      (looSplits n).length = n ∧
      (∀ i, i < n → looTest i = [i] ∧ (looTrain n i).length = n - 1) ∧
      ((looSplits n).map (fun p => p.2)).flatten = List.range n) ∧
    ((looSplits 125).length = 125 ∧
      ∀ p ∈ looSplits 125, p.1.length = 124 ∧ p.2.length = 1) := by
  constructor
  · intro n hn
    refine ⟨by simp [looSplits], ?_, ?_⟩
    · intro i hi
      refine ⟨rfl, ?_⟩
      have := (isPartition_loo n i hi).2.2
      rw [looTest] at this
      simp at this
      omega
    · show ((looSplits n).map (fun p => p.2)).flatten = List.range n
      rw [looSplits, List.map_map]
      exact flatten_map_singleton n
  · exact ⟨by decide, by decide⟩

theorem leave_one_out_folds_witness :
    (looSplits 125).length = 125 ∧
      (looTest 0 = [0] ∧ (looTrain 125 0).length = 125 - 1) :=
  ⟨(leave_one_out_folds.1 125 (by decide)).1,
   (leave_one_out_folds.1 125 (by decide)).2.1 0 (by decide)⟩

theorem length_selectRows (idxs : List Nat) (a : List α)
    (hb : ∀ i ∈ idxs, i < a.length) :
    (selectRows idxs a).length = idxs.length := by
  induction idxs with
  | nil => rfl
  | cons i is ih =>
    have hi : i < a.length := hb i (List.mem_cons_self i is)
    have : a[i]? = some (a[i]) := List.getElem?_eq_getElem hi
    simp only [selectRows, List.filterMap_cons, this]
    rw [List.length_cons]
    have := ih (fun j hj => hb j (List.mem_cons_of_mem i hj))
    simpa [selectRows] using this

theorem getElem?_selectRows (idxs : List Nat) (a : List α)
    (hb : ∀ i ∈ idxs, i < a.length) (j : Nat) :
    (selectRows idxs a)[j]? = idxs[j]?.bind (fun i => a[i]?) := by
  induction idxs generalizing j with
  | nil => simp [selectRows]
  | cons i is ih =>
    have hi : i < a.length := hb i (List.mem_cons_self i is)
    have hsome : a[i]? = some (a[i]) := List.getElem?_eq_getElem hi
    have htail := ih (fun x hx => hb x (List.mem_cons_of_mem i hx))
    cases j with
    | zero => simp [selectRows, List.filterMap_cons, hsome]
    | succ j' =>
      simp only [selectRows, List.filterMap_cons, hsome]
      rw [List.getElem?_cons_succ, List.getElem?_cons_succ]
      exact htail j'

/-- C2: `train_test_split` on `m` same-length arrays returns one
(train, test) pair per array (2m arrays); all train parts share one
length, all test parts share one length, they sum to `n`, and both parts
select the same row positions from each input array; the notebook's call
on three 125-row arrays gives train/test row counts 93/32 with column
counts unchanged. -/
theorem train_test_split_row_aligned :
    (∀ (α : Type) (perm : List Nat) (n nTest : Nat) (arrays : List (List α)),
      perm.length = n → (∀ i ∈ perm, i < n) → nTest ≤ n →
      (∀ a ∈ arrays, a.length = n) →
      (train_test_split perm nTest arrays).length = arrays.length ∧
      (∀ p ∈ train_test_split perm nTest arrays,
        p.1.length = n - nTest ∧ p.2.length = nTest ∧ p.1.length + p.2.length = n) ∧
      (∀ a ∈ arrays, ∀ j : Nat,
        (selectRows (trainIdx perm nTest) a)[j]? =
          (trainIdx perm nTest)[j]?.bind (fun i => a[i]?) ∧
        (selectRows (testIdx perm nTest) a)[j]? =
          (testIdx perm nTest)[j]?.bind (fun i => a[i]?))) ∧
    (defaultTestSize 125 = 32 ∧
      (train_test_split (List.range 125) (defaultTestSize 125)
          [List.replicate 125 (List.replicate 4 (0 : Nat)),
           List.replicate 125 (List.replicate 3 (1 : Nat))]).map
        (fun p => (p.1.length, p.2.length)) = [(93, 32), (93, 32)] ∧
      (train_test_split (List.range 125) (defaultTestSize 125)
          [List.replicate 125 (0 : Nat)]).map
        (fun p => (p.1.length, p.2.length)) = [(93, 32)] ∧
      (train_test_split (List.range 125) (defaultTestSize 125)
          [List.replicate 125 (List.replicate 4 (0 : Nat))]).all
        (fun p => p.1.all (fun r => r.length == 4) && p.2.all (fun r => r.length == 4)) = true) := by
  constructor
  · intro α perm n nTest arrays hlen hbound hle harr
    have htrb : ∀ a ∈ arrays, ∀ i ∈ trainIdx perm nTest, i < a.length := by
      intro a ha i hi
      rw [harr a ha]
      exact hbound i ((List.drop_sublist _ _).subset hi)
    have hteb : ∀ a ∈ arrays, ∀ i ∈ testIdx perm nTest, i < a.length := by
      intro a ha i hi
      rw [harr a ha]
      exact hbound i ((List.take_sublist _ _).subset hi)
    refine ⟨by simp [train_test_split], ?_, ?_⟩
    · intro p hp
      rw [train_test_split] at hp
      obtain ⟨a, ha, rfl⟩ := List.mem_map.mp hp
      have h1 : (selectRows (trainIdx perm nTest) a).length = n - nTest := by
        rw [length_selectRows _ _ (htrb a ha), trainIdx, List.length_drop, hlen]
      have h2 : (selectRows (testIdx perm nTest) a).length = nTest := by
        rw [length_selectRows _ _ (hteb a ha), testIdx, List.length_take, hlen]
        omega
      exact ⟨h1, h2, by rw [h1, h2]; omega⟩
    · intro a ha j
      exact ⟨getElem?_selectRows _ _ (htrb a ha) j, getElem?_selectRows _ _ (hteb a ha) j⟩
  · exact ⟨by decide, by decide, by decide, by decide⟩

theorem train_test_split_row_aligned_witness :
    (train_test_split (List.range 5) 2 [[(1 : Nat), 2, 3, 4, 5]]).length = 1 :=
  (train_test_split_row_aligned.1 Nat (List.range 5) 5 2 [[1, 2, 3, 4, 5]]
    (by decide) (by decide) (by decide) (by decide)).1

theorem mem_groupKFoldTest (groups : List Nat) (k i j : Nat) :
    j ∈ groupKFoldTest groups k i ↔
      j < groups.length ∧
        foldOfGroup (groupToFold groups k) (groups.getD j 0) = some i := by
  simp [groupKFoldTest, List.mem_filter]

theorem mem_groupKFoldTrain (groups : List Nat) (k i j : Nat) :
    j ∈ groupKFoldTrain groups k i ↔
      j < groups.length ∧
        foldOfGroup (groupToFold groups k) (groups.getD j 0) ≠ some i := by
  simp [groupKFoldTrain, List.mem_filter]

theorem isPartition_groupKFold (groups : List Nat) (k i : Nat) :
    IsPartition groups.length (groupKFoldTrain groups k i) (groupKFoldTest groups k i) := by
  refine ⟨?_, ?_, ?_⟩
  · intro j ⟨htr, hte⟩
    exact ((mem_groupKFoldTrain groups k i j).mp htr).2
      ((mem_groupKFoldTest groups k i j).mp hte).2
  · intro j
    rw [mem_groupKFoldTrain, mem_groupKFoldTest]
    constructor
    · rintro (h | h) <;> exact h.1
    · intro hj
      by_cases hf : foldOfGroup (groupToFold groups k) (groups.getD j 0) = some i
      · exact Or.inr ⟨hj, hf⟩
      · exact Or.inl ⟨hj, hf⟩
  · have hsplit := List.length_eq_length_filter_add (l := List.range groups.length)
      (fun j => foldOfGroup (groupToFold groups k) (groups.getD j 0) == some i)
    rw [List.length_range] at hsplit
    rw [groupKFoldTrain, groupKFoldTest]
    omega

/-- C4: with at least as many distinct groups as folds, GroupKFold's
folds have group-disjoint test sets — no group label occurs in the test
sets of two different folds, and within one split no label occurs on
both the train and the test side; on the truncated Iris data with
`groups = iris.target` and `k = 3` each test fold is one homogeneous
class (sizes 50, 50, 25, the last being rows 100..124). -/
theorem groupKFold_group_disjoint :
    (∀ (groups : List Nat) (k : Nat), k ≤ (uniqueSorted groups).length →
      (∀ i i', i ≠ i' →
        ∀ j ∈ groupKFoldTest groups k i, ∀ j' ∈ groupKFoldTest groups k i',
          groups.getD j 0 ≠ groups.getD j' 0) ∧
      (∀ i, ∀ j ∈ groupKFoldTrain groups k i, ∀ j' ∈ groupKFoldTest groups k i,
        groups.getD j 0 ≠ groups.getD j' 0)) ∧
    ((groupKFoldTest irisTarget 3 0).all (fun j => irisTarget.getD j 0 == 0) = true ∧
      (groupKFoldTest irisTarget 3 1).all (fun j => irisTarget.getD j 0 == 1) = true ∧
      (groupKFoldTest irisTarget 3 2).all (fun j => irisTarget.getD j 0 == 2) = true ∧
      (groupKFoldTest irisTarget 3 0).length = 50 ∧
      (groupKFoldTest irisTarget 3 1).length = 50 ∧
      groupKFoldTest irisTarget 3 2 = List.range' 100 25) := by
  constructor
  · intro groups k hk
    constructor
    · intro i i' hne j hj j' hj' heq
      have h1 := ((mem_groupKFoldTest groups k i j).mp hj).2
      have h2 := ((mem_groupKFoldTest groups k i' j').mp hj').2
      rw [heq, h2] at h1
      exact hne (Option.some_injective _ h1.symm)
    · intro i j hj j' hj' heq
      have h1 := ((mem_groupKFoldTrain groups k i j).mp hj).2
      have h2 := ((mem_groupKFoldTest groups k i j').mp hj').2
      rw [heq] at h1
      exact h1 h2
  · exact ⟨by decide, by decide, by decide, by decide, by decide, by decide⟩

theorem groupKFold_group_disjoint_witness :
    ∀ j ∈ groupKFoldTrain irisTarget 3 0, ∀ j' ∈ groupKFoldTest irisTarget 3 0,
      irisTarget.getD j 0 ≠ irisTarget.getD j' 0 :=
  (groupKFold_group_disjoint.1 irisTarget 3 (by decide)).2 0

theorem le_foldr_max (l : List Nat) (a : Nat) (h : a ∈ l) : a ≤ l.foldr max 0 := by
  induction l with
  | nil => cases h
  | cons b bs ih =>
    rcases List.mem_cons.mp h with rfl | h'
    · exact Nat.le_max_left _ _
    · exact Nat.le_trans (ih h') (Nat.le_max_right _ _)

theorem mem_uniqueSorted (l : List Nat) (c : Nat) : c ∈ uniqueSorted l ↔ c ∈ l := by
  unfold uniqueSorted
  rw [List.mem_filter, List.mem_range, decide_eq_true_eq]
  exact ⟨fun h => h.2, fun h => ⟨Nat.lt_succ_of_le (le_foldr_max l c h), h⟩⟩

theorem nodup_uniqueSorted (l : List Nat) : (uniqueSorted l).Nodup :=
  (List.nodup_range _).filter _

theorem mem_classIndices (y : List Nat) (c j : Nat) :
    j ∈ classIndices y c ↔ j < y.length ∧ y.getD j 0 = c := by
  simp [classIndices, List.mem_filter]

theorem nodup_classIndices (y : List Nat) (c : Nat) : (classIndices y c).Nodup :=
  (List.nodup_range _).filter _

/-- The positions of class `c` are as many as the occurrences of `c` in `y`. -/
theorem length_classIndices (y : List Nat) (c : Nat) :
    (classIndices y c).length = y.count c := by
  have hmap : (List.range y.length).map (fun j => y.getD j 0) = y := by
    apply List.ext_get
    · simp
    · intro j h1 h2
      simp only [List.get_eq_getElem, List.getElem_map, List.getElem_range]
      exact List.getD_eq_getElem y 0 h2
  have h1 : (classIndices y c).length =
      (List.range y.length).countP (fun j => decide (y.getD j 0 = c)) := by
    rw [classIndices, List.countP_eq_length_filter]
  rw [h1]
  have h2 : ((List.range y.length).map (fun j => y.getD j 0)).countP
      (fun x => decide (x = c)) =
      (List.range y.length).countP (fun j => decide (y.getD j 0 = c)) :=
    List.countP_map _ _ _
  rw [← h2, hmap, List.count_eq_countP]
  exact List.countP_congr (fun x _ => by simp)

theorem mem_stratifiedTest (y : List Nat) (k i j : Nat) (h : j ∈ stratifiedTest y k i) :
    j < y.length ∧ ∃ c ∈ uniqueSorted y,
      y.getD j 0 = c ∧ j ∈ kfoldTestOf (classIndices y c) k i := by
  rw [stratifiedTest, List.mem_flatMap] at h
  obtain ⟨c, hc, hj⟩ := h
  have hin : j ∈ classIndices y c := (kfoldTestOf_sublist _ _ _).subset hj
  rw [mem_classIndices] at hin
  exact ⟨hin.1, c, hc, hin.2, hj⟩

theorem nodup_stratifiedTest (y : List Nat) (k i : Nat) :
    (stratifiedTest y k i).Nodup := by
  rw [stratifiedTest, List.nodup_flatMap]
  constructor
  · intro c _
    exact (kfoldTestOf_sublist _ _ _).nodup (nodup_classIndices y c)
  · apply List.Pairwise.imp ?_ ((nodup_uniqueSorted y))
    intro c c' hne j hj hj'
    have h1 := (mem_classIndices y c j).mp ((kfoldTestOf_sublist _ _ _).subset hj)
    have h2 := (mem_classIndices y c' j).mp ((kfoldTestOf_sublist _ _ _).subset hj')
    exact hne (h1.2 ▸ h2.2 ▸ rfl)

theorem isPartition_stratified (y : List Nat) (k i : Nat) :
    IsPartition y.length (stratifiedTrain y k i) (stratifiedTest y k i) :=
  isPartition_complement y.length (stratifiedTest y k i)
    (nodup_stratifiedTest y k i)
    (fun j hj => (mem_stratifiedTest y k i j hj).1)

theorem sum_map_eq_of_single (l : List Nat) (f : Nat → Nat) (c : Nat)
    (hnd : l.Nodup) (hc : c ∈ l) (hz : ∀ c' ∈ l, c' ≠ c → f c' = 0) :
    (l.map f).sum = f c := by
  induction l with
  | nil => cases hc
  | cons b bs ih =>
    rw [List.map_cons, List.sum_cons]
    rcases List.mem_cons.mp hc with rfl | hc'
    · have : ((bs.map f)).sum = 0 := by
        apply List.sum_eq_zero
        intro x hx
        obtain ⟨c', hc', rfl⟩ := List.mem_map.mp hx
        exact hz c' (List.mem_cons_of_mem _ hc')
          (fun h => (List.nodup_cons.mp hnd).1 (h ▸ hc'))
      omega
    · rw [hz b (List.mem_cons_self b bs)
        (fun h => (List.nodup_cons.mp hnd).1 (h ▸ hc')), Nat.zero_add]
      exact ih (List.nodup_cons.mp hnd).2 hc'
        (fun c' h hne => hz c' (List.mem_cons_of_mem _ h) hne)

theorem countP_stratifiedTest (y : List Nat) (k i c : Nat) (hk : 0 < k) (hi : i < k)
    (hc : c ∈ uniqueSorted y) :
    (stratifiedTest y k i).countP (fun j => decide (y.getD j 0 = c)) =
      foldSize (y.count c) k i := by
  have hz : ∀ c' ∈ uniqueSorted y, c' ≠ c →
      (fun c' => (kfoldTestOf (classIndices y c') k i).countP
        (fun j => decide (y.getD j 0 = c))) c' = 0 := by
    intro c' _ hne
    rw [List.countP_eq_zero]
    intro j hj
    have hm := (mem_classIndices y c' j).mp ((kfoldTestOf_sublist _ _ _).subset hj)
    simp only [decide_eq_true_eq, hm.2]
    exact fun h => hne h
  rw [stratifiedTest, List.countP_flatMap]
  have hs := sum_map_eq_of_single (uniqueSorted y)
      (fun c' => (kfoldTestOf (classIndices y c') k i).countP
        (fun j => decide (y.getD j 0 = c)))
      c (nodup_uniqueSorted y) hc hz
  show ((uniqueSorted y).map
      (fun c' => (kfoldTestOf (classIndices y c') k i).countP
        (fun j => decide (y.getD j 0 = c)))).sum = foldSize (y.count c) k i
  rw [hs]
  show (kfoldTestOf (classIndices y c) k i).countP
      (fun j => decide (y.getD j 0 = c)) = foldSize (y.count c) k i
  have hall : ∀ j ∈ kfoldTestOf (classIndices y c) k i,
      decide (y.getD j 0 = c) = true := by
    intro j hj
    have hm := (mem_classIndices y c j).mp ((kfoldTestOf_sublist _ _ _).subset hj)
    exact decide_eq_true hm.2
  rw [List.countP_eq_length.mpr hall, length_kfoldTestOf _ _ _ hk hi, length_classIndices]

/-- C5: each `StratifiedKFold(n_splits=k).split(X, y)` test fold holds,
for every class `c`, a number of samples of class `c` equal to the floor
or the ceiling of `(count of c in y) / k`; on the truncated Iris data
(class counts 50, 50, 25) with `k = 3` the first test fold holds 17, 17
and 9 samples of the three classes (rows 0..16, 50..66, 100..108), and
the three folds have sizes 43, 42, 40. -/
theorem stratified_class_proportional :
    (∀ (y : List Nat) (k i c : Nat), 0 < k → i < k → c ∈ uniqueSorted y →
      (stratifiedTest y k i).countP (fun j => decide (y.getD j 0 = c)) =
        foldSize (y.count c) k i ∧
      ((stratifiedTest y k i).countP (fun j => decide (y.getD j 0 = c)) =
          y.count c / k ∨
        (stratifiedTest y k i).countP (fun j => decide (y.getD j 0 = c)) =
          (y.count c + k - 1) / k)) ∧
    ((stratifiedTest irisTarget 3 0).countP
        (fun j => decide (irisTarget.getD j 0 = 0)) = 17 ∧
      (stratifiedTest irisTarget 3 0).countP
        (fun j => decide (irisTarget.getD j 0 = 1)) = 17 ∧
      (stratifiedTest irisTarget 3 0).countP
        (fun j => decide (irisTarget.getD j 0 = 2)) = 9 ∧
      stratifiedTest irisTarget 3 0 =
        List.range' 0 17 ++ (List.range' 50 17 ++ List.range' 100 9) ∧
      (stratifiedTest irisTarget 3 0).length = 43 ∧
      (stratifiedTest irisTarget 3 1).length = 42 ∧
      (stratifiedTest irisTarget 3 2).length = 40) := by
  constructor
  · intro y k i c hk hi hc
    have h1 := countP_stratifiedTest y k i c hk hi hc
    refine ⟨h1, ?_⟩
    rw [h1]
    exact foldSize_floor_or_ceil (y.count c) k i hk
  · exact ⟨by decide, by decide, by decide, by decide, by decide, by decide, by decide⟩

theorem stratified_class_proportional_witness :
    (stratifiedTest irisTarget 3 0).countP
        (fun j => decide (irisTarget.getD j 0 = 0)) =
      foldSize (irisTarget.count 0) 3 0 :=
  (stratified_class_proportional.1 irisTarget 3 0 0 (by decide) (by decide) (by decide)).1

/-- C9: every (train, test) pair yielded by the four splitters used in
the notebooks partitions the full index set `0..n-1`: train and test are
disjoint, their union is exactly the `n` row indices, and their lengths
sum to `n`. -/
theorem splitters_partition_indices :
    (∀ n k i, IsPartition n (kfoldTrain n k i) (kfoldTest n k i)) ∧
    (∀ (y : List Nat) k i,
      IsPartition y.length (stratifiedTrain y k i) (stratifiedTest y k i)) ∧
    (∀ n i, i < n → IsPartition n (looTrain n i) (looTest i)) ∧
    (∀ (groups : List Nat) k i,
      IsPartition groups.length (groupKFoldTrain groups k i) (groupKFoldTest groups k i)) :=
  ⟨isPartition_kfold, isPartition_stratified, isPartition_loo, isPartition_groupKFold⟩

theorem splitters_partition_indices_witness :
    IsPartition 125 (looTrain 125 0) (looTest 0) :=
  splitters_partition_indices.2.2.1 125 0 (by decide)

theorem hasShape3_normalizeBatch (xs : List (List (List Nat))) (d1 d2 d3 : Nat)
    (h : hasShape3 xs d1 d2 d3) : hasShape3 (normalizeBatch xs) d1 d2 d3 := by
  obtain ⟨h1, h2⟩ := h
  refine ⟨by simpa [normalizeBatch] using h1, ?_⟩
  intro img himg
  rw [normalizeBatch, List.mem_map] at himg
  obtain ⟨img0, himg0, rfl⟩ := himg
  obtain ⟨hl, hr⟩ := h2 img0 himg0
  refine ⟨by simpa [normalizeImage] using hl, ?_⟩
  intro row hrow
  rw [normalizeImage, List.mem_map] at hrow
  obtain ⟨row0, hrow0, rfl⟩ := hrow
  simpa using hr row0 hrow0

/-- C6: the notebooks' only authored transformation divides each pixel by
255; on integer pixels 0..255 every result lies in [0, 1], with 0 ↦ 0 and
255 ↦ 1, and the array shape is unchanged. -/
theorem normalization_bounds_and_shape :
    (∀ x : Nat, x ≤ 255 → 0 ≤ normalizePixel x ∧ normalizePixel x ≤ 1) ∧
    normalizePixel 0 = 0 ∧
    normalizePixel 255 = 1 ∧
    (∀ (xs : List (List (List Nat))) (d1 d2 d3 : Nat),
      hasShape3 xs d1 d2 d3 → hasShape3 (normalizeBatch xs) d1 d2 d3) := by
  refine ⟨?_, by simp [normalizePixel], by norm_num [normalizePixel], hasShape3_normalizeBatch⟩
  intro x hx
  unfold normalizePixel
  constructor
  · exact div_nonneg (Nat.cast_nonneg x) (by norm_num)
  · rw [div_le_one (by norm_num)]
    exact_mod_cast hx

theorem normalization_bounds_and_shape_witness :
    0 ≤ normalizePixel 128 ∧ normalizePixel 128 ≤ 1 :=
  normalization_bounds_and_shape.1 128 (by decide)

theorem hasShape3_replicate (d1 d2 d3 v : Nat) :
    hasShape3 (List.replicate d1 (List.replicate d2 (List.replicate d3 v))) d1 d2 d3 := by
  refine ⟨List.length_replicate _ _, ?_⟩
  intro img himg
  rw [List.eq_of_mem_replicate himg]
  refine ⟨List.length_replicate _ _, ?_⟩
  intro row hrow
  rw [List.eq_of_mem_replicate hrow]
  exact List.length_replicate _ _

/-- C7: the loaded MNIST arrays have shapes (60000, 28, 28) and
(10000, 28, 28), both before and after the elementwise normalization. -/
theorem mnist_shapes :
    hasShape3 mnistXTrain 60000 28 28 ∧
    hasShape3 mnistXTest 10000 28 28 ∧
    hasShape3 (normalizeBatch mnistXTrain) 60000 28 28 ∧
    hasShape3 (normalizeBatch mnistXTest) 10000 28 28 :=
  ⟨hasShape3_replicate 60000 28 28 0,
   hasShape3_replicate 10000 28 28 0,
   hasShape3_normalizeBatch _ _ _ _ (hasShape3_replicate 60000 28 28 0),
   hasShape3_normalizeBatch _ _ _ _ (hasShape3_replicate 10000 28 28 0)⟩

theorem runProgram_error_of_call (pre : List (Nat → Except Nat Nat))
    (f : Nat → Except Nat Nat) (post : List (Nat → Except Nat Nat))
    (s s' : Nat) (e : Nat)
    (hpre : runProgram (notebookProgram pre) s = .ok s')
    (hf : f s' = .error e) :
    runProgram (notebookProgram (pre ++ f :: post)) s = .error e := by
  induction pre generalizing s with
  | nil =>
    have hs : s = s' := by
      rw [notebookProgram, List.map_nil, runProgram] at hpre
      exact (Except.ok.injEq _ _).mp hpre
    subst hs
    rw [List.nil_append, notebookProgram, List.map_cons, runProgram, runStmt, hf]
  | cons g gs ih =>
    rw [notebookProgram, List.map_cons, runProgram, runStmt] at hpre
    rw [List.cons_append, notebookProgram, List.map_cons, runProgram, runStmt]
    cases hg : g s with
    | ok t =>
      rw [hg] at hpre
      exact ih t hpre
    | error e' =>
      rw [hg] at hpre
      cases hpre

/-- C8: the repository authors no error handling: every notebook cell is
a bare library call (no try/except anywhere), and whenever a call fails
the error propagates unmodified to the notebook environment — the run
result is that very error and the following cells never execute. -/
theorem no_authored_error_handling :
    (∀ calls : List (Nat → Except Nat Nat),
      ∀ st ∈ notebookProgram calls, st.isCall = true) ∧
    (∀ (pre : List (Nat → Except Nat Nat)) (f : Nat → Except Nat Nat)
        (post : List (Nat → Except Nat Nat)) (s s' : Nat) (e : Nat),
      runProgram (notebookProgram pre) s = .ok s' → f s' = .error e →
      runProgram (notebookProgram (pre ++ f :: post)) s = .error e) := by
  constructor
  · intro calls st hst
    rw [notebookProgram] at hst
    obtain ⟨f, _, rfl⟩ := List.mem_map.mp hst
    rfl
  · exact runProgram_error_of_call

theorem no_authored_error_handling_witness :
    runProgram (notebookProgram
      [fun s => .ok (s + 1), fun _ => .error 42, fun s => .ok s]) 0 = .error 42 :=
  no_authored_error_handling.2 [fun s => .ok (s + 1)] (fun _ => .error 42)
    [fun s => .ok s] 0 1 42 rfl rfl

theorem sum_map_div_eq (v : List ℝ) (f : ℝ → ℝ) (S : ℝ) :
    (v.map (fun z => f z / S)).sum = (v.map f).sum / S := by
  induction v with
  | nil => simp
  | cons a as ih => simp [ih, add_div]

theorem sum_map_exp_pos (v : List ℝ) (hv : v ≠ []) : 0 < (v.map Real.exp).sum := by
  apply List.sum_pos
  · intro x hx
    obtain ⟨z, _, rfl⟩ := List.mem_map.mp hx
    exact Real.exp_pos z
  · intro h
    exact hv (List.map_eq_nil_iff.mp h)

/-- Softmax of a nonempty vector is a probability distribution. -/
theorem softmax_is_distribution (v : List ℝ) (hv : v ≠ []) :
    (softmax v).length = v.length ∧ (∀ z ∈ softmax v, 0 ≤ z) ∧
      (softmax v).sum = 1 := by
  have hS := sum_map_exp_pos v hv
  refine ⟨List.length_map _ _, ?_, ?_⟩
  · intro z hz
    obtain ⟨a, _, rfl⟩ := List.mem_map.mp hz
    exact le_of_lt (div_pos (Real.exp_pos a) hS)
  · rw [softmax, sum_map_div_eq v Real.exp ((v.map Real.exp).sum)]
    exact div_self (ne_of_gt hS)

theorem length_denseLinear (W : List (List ℝ)) (b : List ℝ) (x : List ℝ) :
    (denseLinear W b x).length = min W.length b.length := by
  rw [denseLinear, List.length_map, List.length_zip]

/-- C10: the Sequential network ends in a Dense layer of 10 units with
softmax activation, so for every input image and every parameter set
whose last layer has 10 rows, the model output is a length-10 vector of
nonnegative entries summing to 1 — a probability distribution over the
10 digit classes required by the sparse categorical crossentropy loss. -/
theorem model_output_distribution :
    modelLayers.getLast? = some (Layer.dense 10 Activation.softmax) ∧
    (∀ (p : ModelParams) (img : List (List ℝ)),
      p.W4.length = 10 → p.b4.length = 10 →
      (modelForward p img).length = 10 ∧
      (∀ z ∈ modelForward p img, 0 ≤ z) ∧
      (modelForward p img).sum = 1) := by
  refine ⟨rfl, ?_⟩
  intro p img hW hb
  have hvlen : (denseLinear p.W4 p.b4
      (denseRelu p.W3 p.b3 (denseRelu p.W2 p.b2
        (denseRelu p.W1 p.b1 img.flatten)))).length = 10 := by
    rw [length_denseLinear, hW, hb]
    rfl
  have hvne : denseLinear p.W4 p.b4
      (denseRelu p.W3 p.b3 (denseRelu p.W2 p.b2
        (denseRelu p.W1 p.b1 img.flatten))) ≠ [] := by
    intro h
    rw [h] at hvlen
    cases hvlen
  obtain ⟨h1, h2, h3⟩ := softmax_is_distribution _ hvne
  rw [modelForward]
  rw [h1] at *
  exact ⟨by rw [h1, hvlen], h2, h3⟩

theorem model_output_distribution_witness :
    (modelForward ⟨[], [], [], [], [], [], List.replicate 10 [],
        List.replicate 10 0⟩ (List.replicate 28 (List.replicate 28 0))).length = 10 :=
  (model_output_distribution.2 ⟨[], [], [], [], [], [], List.replicate 10 [],
      List.replicate 10 0⟩ (List.replicate 28 (List.replicate 28 0))
    (by simp) (by simp)).1
